import Mathlib

/-!
Verification of the LRU-K replacer (`src/buffer/lru_k_replacer.rs`) of the
mini-btree repository, against its natural-language specification.

The Rust code is shallowly embedded: `HashMap<FrameId, LRUKNode>` becomes an
association list with distinct keys (the map is unordered; the eviction
comparator's final frame-id tie-break makes the chosen victim independent of
iteration order, so a list model is faithful), `u64`/`u128` become `Nat`
with the overflow points made explicit (`checked_add` on the clock,
`saturating_sub` in the distance computation), and `Result<T, CustomError>`
becomes `Except CustomError` paired with the post-state (Rust methods take
`&mut self`, so even a failing call can leave a mutated receiver behind).
-/

/-- Largest value of the Rust `u64` type (the clock's width). -/
def U64_MAX : Nat := 2 ^ 64 - 1

/-- Largest value of the Rust `u128` type (the comparison key's width);
used as the "infinite distance" sentinel in `evict`. -/
def U128_MAX : Nat := 2 ^ 128 - 1

/-- `crate::error::CustomError`, restricted to the variants this module
produces. -/
inductive CustomError where
  | Internal : String → CustomError
  deriving DecidableEq, Repr

/-- `FrameId = usize`. -/
abbrev FrameId := Nat

/-- `LRUKNode`: per-frame access history plus evictable flag. -/
structure LRUKNode where
  /-- K parameter: distance is measured to the K-th most recent access. -/
  k : Nat
  /-- At most `k` timestamps in ascending recency: head is the K-th most
  recent (oldest in the kept window), last is the most recent. -/
  history : List Nat
  /-- Whether this frame is allowed to be evicted. -/
  is_evictable : Bool
  deriving DecidableEq, Repr

namespace LRUKNode

/-- `LRUKNode::new`. -/
def new (k : Nat) : LRUKNode :=
  { k := k, history := [], is_evictable := false }

/-- `LRUKNode::record_access`: keep at most `k` entries, dropping the
oldest when already at `k`. -/
def record_access (n : LRUKNode) (ts : Nat) : LRUKNode :=
  if n.history.length = n.k then
    { n with history := n.history.tail ++ [ts] }
  else
    { n with history := n.history ++ [ts] }

/-- `LRUKNode::len`. -/
def len (n : LRUKNode) : Nat := n.history.length

/-- `LRUKNode::last_ts`: most recent access time, if any. -/
def last_ts (n : LRUKNode) : Option Nat := n.history.getLast?

/-- `LRUKNode::kth_ts`: K-th most recent access time, defined only when
the history holds exactly `k` entries. -/
def kth_ts (n : LRUKNode) : Option Nat :=
  if n.history.length = n.k then n.history.head? else none

end LRUKNode

/-- Lookup in the association-list model of `node_store`
(`HashMap::get`). -/
def findNode (fid : FrameId) : List (FrameId × LRUKNode) → Option LRUKNode
  | [] => none
  | p :: rest => if p.1 = fid then some p.2 else findNode fid rest

/-- In-place update of the entry with key `fid`
(`HashMap::get_mut` followed by mutation). -/
def updateNode (fid : FrameId) (n : LRUKNode) :
    List (FrameId × LRUKNode) → List (FrameId × LRUKNode)
  | [] => []
  | p :: rest => if p.1 = fid then (fid, n) :: rest else p :: updateNode fid n rest

/-- Deletion of the entry with key `fid` (`HashMap::remove`). -/
def eraseNode (fid : FrameId) :
    List (FrameId × LRUKNode) → List (FrameId × LRUKNode)
  | [] => []
  | p :: rest => if p.1 = fid then rest else p :: eraseNode fid rest

/-- The count of evictable entries obtained by full scan
(`node_store.values().filter(|n| n.is_evictable).count()`). -/
def countEvictable (l : List (FrameId × LRUKNode)) : Nat :=
  (l.filter (fun p => p.2.is_evictable)).length

/-- `LRUKReplacer` state. -/
structure LRUKReplacer where
  /-- Count of evictable frames currently tracked. -/
  current_size : Nat
  /-- Maximum number of frames the replacer can track. -/
  capacity : Nat
  /-- K parameter. -/
  k : Nat
  /-- Map from frame id to node (association list, keys distinct). -/
  node_store : List (FrameId × LRUKNode)
  /-- Monotonic logical time for ordering accesses. -/
  current_timestamp : Nat
  deriving DecidableEq, Repr

namespace LRUKReplacer

/-- `LRUKReplacer::new` (the Rust code additionally panics when
`capacity = 0` or `k = 0`). -/
def new (capacity k : Nat) : LRUKReplacer :=
  { current_size := 0, capacity := capacity, k := k,
    node_store := [], current_timestamp := 0 }

/-- The clock bump at the top of `record_access`:
`checked_add(1)`, falling back to `0` on `u64` overflow. -/
def tick (ts : Nat) : Nat :=
  if ts < U64_MAX then ts + 1 else 0

/-- `LRUKReplacer::record_access`. The clock is advanced first; then an
already-tracked frame gets the new timestamp appended, a new frame is
admitted only below capacity, and otherwise an error is returned (with the
clock already advanced, as in the Rust code). -/
def record_access (r : LRUKReplacer) (frame_id : FrameId) :
    Except CustomError Unit × LRUKReplacer :=
  let ts := tick r.current_timestamp
  let r := { r with current_timestamp := ts }
  match findNode frame_id r.node_store with
  | some node =>
      (Except.ok (),
       { r with node_store := updateNode frame_id (node.record_access ts) r.node_store })
  | none =>
      if r.node_store.length ≥ r.capacity then
        (Except.error (CustomError.Internal "replacer bookkeeping exceeds capacity"), r)
      else
        (Except.ok (),
         { r with node_store :=
             r.node_store ++ [(frame_id, (LRUKNode.new r.k).record_access ts)] })

/-- `LRUKReplacer::set_evictable`. -/
def set_evictable (r : LRUKReplacer) (frame_id : FrameId) (flag : Bool) :
    Except CustomError Unit × LRUKReplacer :=
  match findNode frame_id r.node_store with
  | none => (Except.error (CustomError.Internal "frame not found"), r)
  | some node =>
      let was := node.is_evictable
      let store := updateNode frame_id { node with is_evictable := flag } r.node_store
      let size :=
        if was = false ∧ flag = true then r.current_size + 1
        else if was = true ∧ flag = false then r.current_size - 1
        else r.current_size
      (Except.ok (), { r with node_store := store, current_size := size })

/-- `LRUKReplacer::remove`. -/
def remove (r : LRUKReplacer) (frame_id : FrameId) :
    Except CustomError Unit × LRUKReplacer :=
  match findNode frame_id r.node_store with
  | none => (Except.ok (), r)
  | some node =>
      if node.is_evictable = false then
        (Except.error (CustomError.Internal "frame is not evictable"), r)
      else
        (Except.ok (),
         { r with node_store := eraseNode frame_id r.node_store,
                  current_size :=
                    if node.is_evictable then r.current_size - 1 else r.current_size })

/-- The comparison key built inside `evict`. -/
structure Key where
  /-- K-distance: `now - kth_ts` for nodes with at least K references
  (a saturating `u128` subtraction); the `u128::MAX` sentinel otherwise. -/
  k_dist : Nat
  /-- Most recent access time. -/
  last_ts : Nat
  /-- Final tiebreaker for determinism (`FrameId`, i.e. `Nat`; spelled
  `Nat` here so arithmetic automation sees through it). -/
  frame_id : Nat
  deriving DecidableEq, Repr

/-- The comparator `better` of `evict`: larger `k_dist` first; on a tie,
smaller `last_ts` first; on a further tie, smaller `frame_id` first. -/
def better (a b : Key) : Bool :=
  if b.k_dist < a.k_dist then true
  else if a.k_dist < b.k_dist then false
  else if a.last_ts < b.last_ts then true
  else if b.last_ts < a.last_ts then false
  else decide (a.frame_id < b.frame_id)

/-- The key `evict` computes for one entry: sentinel distance below K
references, saturating subtraction (`Nat` truncated subtraction) at K. -/
def mkKey (now : Nat) (fid : FrameId) (n : LRUKNode) : Key :=
  { k_dist :=
      match n.kth_ts with
      | none => U128_MAX
      | some kth => now - kth
    last_ts := (n.last_ts).getD 0
    frame_id := fid }

/-- One iteration of the scan loop of `evict`: skip non-evictable
entries, adopt the entry's key when there is no candidate yet or when it
beats the current candidate. -/
def scanStep (now : Nat) (best : Option (Key × FrameId))
    (p : FrameId × LRUKNode) : Option (Key × FrameId) :=
  if p.2.is_evictable then
    match best with
    | some cur =>
        if better (mkKey now p.1 p.2) cur.1 then some (mkKey now p.1 p.2, p.1)
        else some cur
    | none => some (mkKey now p.1 p.2, p.1)
  else best

/-- The scan loop of `evict`: fold over the store keeping the best
evictable candidate seen so far. -/
def scanBest (now : Nat) :
    List (FrameId × LRUKNode) → Option (Key × FrameId) → Option (Key × FrameId)
  | [], best => best
  | p :: rest, best => scanBest now rest (scanStep now best p)

/-- `LRUKReplacer::evict`: scan for the best evictable candidate, then
remove it via `remove` (discarding that call's result, as the Rust code
does with `let _ =`). -/
def evict (r : LRUKReplacer) : Option FrameId × LRUKReplacer :=
  match scanBest r.current_timestamp r.node_store none with
  | some (_, victim) =>
      (some victim,
       match r.remove victim with
       | (Except.ok _, r') => r'
       | (Except.error _, r') => r')
  | none => (none, r)

/-- `LRUKReplacer::size`. -/
def size (r : LRUKReplacer) : Nat := r.current_size

/-- `n` successive `record_access fid` calls. -/
def iterAccess (fid : FrameId) : Nat → LRUKReplacer → LRUKReplacer
  | 0, r => r
  | n + 1, r => ((iterAccess fid n r).record_access fid).2

/-- Structural invariant maintained by every operation: distinct keys,
accurate evictable count, positive `k` copied into every node, and
per-node history length between 1 and `k`. -/
structure Inv (r : LRUKReplacer) : Prop where
  nodup : (r.node_store.map Prod.fst).Nodup
  size_eq : r.current_size = countEvictable r.node_store
  k_pos : 1 ≤ r.k
  node_k : ∀ p ∈ r.node_store, p.2.k = r.k
  hist_len : ∀ p ∈ r.node_store,
    1 ≤ p.2.history.length ∧ p.2.history.length ≤ p.2.k

/-- States reachable from a fresh replacer through the public API. -/
inductive Reachable : LRUKReplacer → Prop where
  | init : ∀ capacity k, 1 ≤ capacity → 1 ≤ k →
      Reachable (LRUKReplacer.new capacity k)
  | record : ∀ r fid, Reachable r → Reachable (r.record_access fid).2
  | set_ev : ∀ r fid b, Reachable r → Reachable (r.set_evictable fid b).2
  | rem : ∀ r fid, Reachable r → Reachable (r.remove fid).2
  | evict_step : ∀ r, Reachable r → Reachable (r.evict).2

/-- States reachable through the public API without the clock ever
reaching the `u64` maximum (i.e. fewer than `2^64` recorded accesses). -/
inductive ReachableNW : LRUKReplacer → Prop where
  | init : ∀ capacity k, 1 ≤ capacity → 1 ≤ k →
      ReachableNW (LRUKReplacer.new capacity k)
  | record : ∀ r fid, r.current_timestamp < U64_MAX → ReachableNW r →
      ReachableNW (r.record_access fid).2
  | set_ev : ∀ r fid b, ReachableNW r → ReachableNW (r.set_evictable fid b).2
  | rem : ∀ r fid, ReachableNW r → ReachableNW (r.remove fid).2
  | evict_step : ∀ r, ReachableNW r → ReachableNW (r.evict).2

/-- Invariant holding as long as the clock has not wrapped: every stored
timestamp is bounded by the clock and every history is strictly
increasing, oldest first. -/
structure InvNW (r : LRUKReplacer) : Prop where
  ts_le : ∀ p ∈ r.node_store, ∀ t ∈ p.2.history, t ≤ r.current_timestamp
  sorted : ∀ p ∈ r.node_store, List.Chain' (fun a b => a < b) p.2.history


end LRUKReplacer

/-! ### Properties of the comparator `better` -/

namespace LRUKReplacer

/-- No key is strictly better than itself. -/
lemma better_irrefl (a : Key) : better a a = false := by
  simp [better]

/-- The comparator is asymmetric. -/
lemma better_asymm {a b : Key} (h : better a b = true) : better b a = false := by
  unfold better at h ⊢
  split_ifs at h ⊢ <;> first | rfl | (exfalso; omega) | (simp_all; omega)

/-- The comparator is transitive. -/
lemma better_trans {a b c : Key} (hab : better a b = true)
    (hbc : better b c = true) : better a c = true := by
  unfold better at hab hbc ⊢
  split_ifs at hab hbc ⊢ <;>
    first | rfl | (exfalso; simp_all; omega) | (simp_all; omega)

/-- On keys with distinct frame ids the comparator is total. -/
lemma better_total {a b : Key} (h : a.frame_id ≠ b.frame_id) :
    better a b = true ∨ better b a = true := by
  unfold better
  split_ifs <;> simp_all <;> omega

end LRUKReplacer

/-! ### Association-list lemmas for the `node_store` model -/

lemma findNode_some_mem {fid : FrameId} {l : List (FrameId × LRUKNode)}
    {n : LRUKNode} (h : findNode fid l = some n) : (fid, n) ∈ l := by
  induction l with
  | nil => simp [findNode] at h
  | cons p rest ih =>
      unfold findNode at h
      split at h
      · next heq =>
          obtain rfl : p.2 = n := by simpa using h
          have hp : p = (fid, p.2) := by
            rw [← heq]
          rw [← hp]
          exact List.mem_cons_self _ _
      · exact List.mem_cons_of_mem _ (ih h)

lemma findNode_none_iff {fid : FrameId} {l : List (FrameId × LRUKNode)} :
    findNode fid l = none ↔ ∀ p ∈ l, p.1 ≠ fid := by
  induction l with
  | nil => simp [findNode]
  | cons p rest ih =>
      unfold findNode
      split
      · next heq => simp [heq]
      · next hne => simp [ih, Ne.symm, hne]

lemma findNode_of_mem_nodup {fid : FrameId} {l : List (FrameId × LRUKNode)}
    {n : LRUKNode} (hnd : (l.map Prod.fst).Nodup) (hm : (fid, n) ∈ l) :
    findNode fid l = some n := by
  induction l with
  | nil => simp at hm
  | cons p rest ih =>
      simp only [List.map_cons, List.nodup_cons] at hnd
      rcases List.mem_cons.mp hm with h | h
      · unfold findNode
        rw [← h]
        simp
      · unfold findNode
        split
        · next heq =>
            exfalso
            exact hnd.1 (heq ▸ (List.mem_map.mpr ⟨(fid, n), h, rfl⟩))
        · exact ih hnd.2 h

lemma updateNode_map_fst (fid : FrameId) (n : LRUKNode)
    (l : List (FrameId × LRUKNode)) :
    (updateNode fid n l).map Prod.fst = l.map Prod.fst := by
  induction l with
  | nil => rfl
  | cons p rest ih =>
      unfold updateNode
      split
      · next heq => simp [heq]
      · simp [ih]

lemma mem_updateNode {fid : FrameId} {n : LRUKNode}
    {l : List (FrameId × LRUKNode)} {q : FrameId × LRUKNode}
    (h : q ∈ updateNode fid n l) : q = (fid, n) ∨ q ∈ l := by
  induction l with
  | nil => simp [updateNode] at h
  | cons p rest ih =>
      unfold updateNode at h
      split at h
      · rcases List.mem_cons.mp h with h | h
        · exact Or.inl h
        · exact Or.inr (List.mem_cons_of_mem _ h)
      · rcases List.mem_cons.mp h with h | h
        · exact Or.inr (h ▸ List.mem_cons_self _ _)
        · rcases ih h with h | h
          · exact Or.inl h
          · exact Or.inr (List.mem_cons_of_mem _ h)

lemma eraseNode_sublist (fid : FrameId) (l : List (FrameId × LRUKNode)) :
    (eraseNode fid l).Sublist l := by
  induction l with
  | nil => simp [eraseNode]
  | cons p rest ih =>
      unfold eraseNode
      split
      · exact List.sublist_cons_self _ _
      · exact ih.cons₂ p

lemma eraseNode_of_none {fid : FrameId} {l : List (FrameId × LRUKNode)}
    (h : findNode fid l = none) : eraseNode fid l = l := by
  induction l with
  | nil => rfl
  | cons p rest ih =>
      unfold findNode at h
      unfold eraseNode
      split at h
      · exact absurd h (by simp)
      · next hne => simp [hne, ih h]

lemma countEvictable_cons (q : FrameId × LRUKNode)
    (l : List (FrameId × LRUKNode)) :
    countEvictable (q :: l) =
      (if q.2.is_evictable then 1 else 0) + countEvictable l := by
  simp only [countEvictable, List.filter_cons]
  split <;> simp_all <;> omega

lemma countEvictable_append_single (l : List (FrameId × LRUKNode))
    (q : FrameId × LRUKNode) :
    countEvictable (l ++ [q]) =
      countEvictable l + (if q.2.is_evictable then 1 else 0) := by
  simp only [countEvictable, List.filter_append, List.length_append]
  simp only [List.filter_cons, List.filter_nil]
  split <;> simp

lemma countEvictable_update {fid : FrameId} {m : LRUKNode}
    {l : List (FrameId × LRUKNode)} (n : LRUKNode)
    (h : findNode fid l = some m) :
    countEvictable (updateNode fid n l) + (if m.is_evictable then 1 else 0) =
      countEvictable l + (if n.is_evictable then 1 else 0) := by
  induction l with
  | nil => simp [findNode] at h
  | cons p rest ih =>
      unfold findNode at h
      unfold updateNode
      split at h
      · next heq =>
          obtain rfl : p.2 = m := by simpa using h
          simp only [if_pos heq, countEvictable_cons]
          omega
      · next hne =>
          simp only [if_neg hne, countEvictable_cons]
          have := ih h
          omega

lemma countEvictable_erase {fid : FrameId} {m : LRUKNode}
    {l : List (FrameId × LRUKNode)} (h : findNode fid l = some m) :
    countEvictable (eraseNode fid l) + (if m.is_evictable then 1 else 0) =
      countEvictable l := by
  induction l with
  | nil => simp [findNode] at h
  | cons p rest ih =>
      unfold findNode at h
      unfold eraseNode
      split at h
      · next heq =>
          obtain rfl : p.2 = m := by simpa using h
          simp only [if_pos heq, countEvictable_cons]
          omega
      · next hne =>
          simp only [if_neg hne, countEvictable_cons]
          have := ih h
          omega

lemma countEvictable_pos {fid : FrameId} {m : LRUKNode}
    {l : List (FrameId × LRUKNode)} (h : findNode fid l = some m)
    (hev : m.is_evictable = true) : 1 ≤ countEvictable l := by
  have hm : (fid, m) ∈ l.filter (fun p => p.2.is_evictable) :=
    List.mem_filter.mpr ⟨findNode_some_mem h, by simp [hev]⟩
  have : l.filter (fun p => p.2.is_evictable) ≠ [] := List.ne_nil_of_mem hm
  have := List.length_pos.mpr this
  simpa [countEvictable] using this

/-! ### Characterization of the eviction scan -/

namespace LRUKReplacer

/-- A non-evictable entry is skipped by the scan step. -/
lemma scanStep_not_ev {p : FrameId × LRUKNode} (now : Nat)
    (best : Option (Key × FrameId)) (h : p.2.is_evictable = false) :
    scanStep now best p = best := by
  simp [scanStep, h]

/-- With no candidate yet, an evictable entry becomes the candidate. -/
lemma scanStep_none {p : FrameId × LRUKNode} (now : Nat)
    (h : p.2.is_evictable = true) :
    scanStep now none p = some (mkKey now p.1 p.2, p.1) := by
  simp [scanStep, h]

/-- An evictable entry that beats the candidate replaces it. -/
lemma scanStep_better {p : FrameId × LRUKNode} {cur : Key × FrameId}
    (now : Nat) (h : p.2.is_evictable = true)
    (hb : better (mkKey now p.1 p.2) cur.1 = true) :
    scanStep now (some cur) p = some (mkKey now p.1 p.2, p.1) := by
  simp [scanStep, h, hb]

/-- An evictable entry that does not beat the candidate is discarded. -/
lemma scanStep_keep {p : FrameId × LRUKNode} {cur : Key × FrameId}
    (now : Nat) (h : p.2.is_evictable = true)
    (hb : better (mkKey now p.1 p.2) cur.1 = false) :
    scanStep now (some cur) p = some cur := by
  simp [scanStep, h, hb]

/-- The scan step never discards an existing candidate. -/
lemma scanStep_isSome {p : FrameId × LRUKNode} {a : Key × FrameId}
    (now : Nat) : (scanStep now (some a) p).isSome = true := by
  by_cases hev : p.2.is_evictable = true
  · by_cases hb : better (mkKey now p.1 p.2) a.1 = true
    · rw [scanStep_better now hev hb]; rfl
    · rw [scanStep_keep now hev (Bool.eq_false_iff.mpr hb)]; rfl
  · rw [scanStep_not_ev now _ (Bool.eq_false_iff.mpr hev)]; rfl

/-- Starting the scan from a present candidate always yields a candidate. -/
lemma scanBest_isSome_of_acc (now : Nat) :
    ∀ (l : List (FrameId × LRUKNode)) (a : Key × FrameId),
      (scanBest now l (some a)).isSome = true := by
  intro l
  induction l with
  | nil => intro a; rfl
  | cons p rest ih =>
      intro a
      show (scanBest now rest (scanStep now (some a) p)).isSome = true
      obtain ⟨b, hb⟩ := Option.isSome_iff_exists.mp (scanStep_isSome now)
      rw [hb]
      exact ih b

/-- If some evictable entry is in the store, the scan yields a candidate. -/
lemma scanBest_isSome_of_mem (now : Nat) :
    ∀ (l : List (FrameId × LRUKNode)) (acc : Option (Key × FrameId))
      (p : FrameId × LRUKNode), p ∈ l → p.2.is_evictable = true →
      (scanBest now l acc).isSome = true := by
  intro l
  induction l with
  | nil => intro acc p hp; simp at hp
  | cons q rest ih =>
      intro acc p hp hev
      show (scanBest now rest (scanStep now acc q)).isSome = true
      rcases List.mem_cons.mp hp with h | h
      · subst h
        cases acc with
        | none =>
            rw [scanStep_none now hev]
            exact scanBest_isSome_of_acc now rest _
        | some cur =>
            obtain ⟨b, hb⟩ := Option.isSome_iff_exists.mp (scanStep_isSome now)
            rw [hb]
            exact scanBest_isSome_of_acc now rest _
      · exact ih _ p h hev

/-- If nothing in the store is evictable, the scan returns its
accumulator. -/
lemma scanBest_of_none_evictable (now : Nat) :
    ∀ (l : List (FrameId × LRUKNode)) (acc : Option (Key × FrameId)),
      (∀ p ∈ l, p.2.is_evictable = false) → scanBest now l acc = acc := by
  intro l
  induction l with
  | nil => intro acc _; rfl
  | cons p rest ih =>
      intro acc h
      show scanBest now rest (scanStep now acc p) = acc
      rw [scanStep_not_ev now acc (h p (List.mem_cons_self _ _))]
      exact ih acc (fun q hq => h q (List.mem_cons_of_mem _ hq))

/-- Full characterization of the scan loop: the returned candidate is at
least as good as the accumulator, is unbeaten by every evictable entry of
the list, and is either the accumulator itself or an evictable entry of
the list carrying its own key. -/
lemma scanBest_spec (now : Nat) :
    ∀ (l : List (FrameId × LRUKNode)) (acc : Option (Key × FrameId))
      (res : Key × FrameId), scanBest now l acc = some res →
      ((∀ a, acc = some a →
          (res = a ∨ better res.1 a.1 = true) ∧ better a.1 res.1 = false) ∧
       (∀ p ∈ l, p.2.is_evictable = true →
          better (mkKey now p.1 p.2) res.1 = false) ∧
       ((∃ a, acc = some a ∧ res = a) ∨
        (∃ n, (res.2, n) ∈ l ∧ n.is_evictable = true ∧
           res.1 = mkKey now res.2 n))) := by
  intro l
  induction l with
  | nil =>
      intro acc res h
      have hacc : acc = some res := h
      refine ⟨?_, ?_, ?_⟩
      · intro a ha
        rw [ha] at hacc
        obtain rfl : res = a := by simpa using hacc.symm
        exact ⟨Or.inl rfl, better_irrefl _⟩
      · intro p hp; simp at hp
      · exact Or.inl ⟨res, hacc, rfl⟩
  | cons p rest ih =>
      intro acc res h
      replace h : scanBest now rest (scanStep now acc p) = some res := h
      by_cases hev : p.2.is_evictable = true
      · cases acc with
        | none =>
            rw [scanStep_none now hev] at h
            obtain ⟨ihacc, ihrest, ihmem⟩ := ih _ _ h
            have hpk := ihacc (mkKey now p.1 p.2, p.1) rfl
            refine ⟨by simp, ?_, ?_⟩
            · intro q hq hqe
              rcases List.mem_cons.mp hq with hq | hq
              · subst hq; exact hpk.2
              · exact ihrest q hq hqe
            · rcases ihmem with ⟨a, ha, hra⟩ | ⟨n, hn, hne, hnk⟩
              · obtain rfl : res = (mkKey now p.1 p.2, p.1) :=
                  hra.trans (Option.some_inj.mp ha).symm
                exact Or.inr ⟨p.2, List.mem_cons_self _ _, hev, rfl⟩
              · exact Or.inr ⟨n, List.mem_cons_of_mem _ hn, hne, hnk⟩
        | some cur =>
            by_cases hbet : better (mkKey now p.1 p.2) cur.1 = true
            · rw [scanStep_better now hev hbet] at h
              obtain ⟨ihacc, ihrest, ihmem⟩ := ih _ _ h
              have hpk := ihacc (mkKey now p.1 p.2, p.1) rfl
              refine ⟨?_, ?_, ?_⟩
              · intro a ha
                obtain rfl : a = cur := (Option.some_inj.mp ha).symm
                rcases hpk.1 with hres | hres
                · rw [hres]
                  exact ⟨Or.inr hbet, better_asymm hbet⟩
                · have hrc := better_trans hres hbet
                  exact ⟨Or.inr hrc, better_asymm hrc⟩
              · intro q hq hqe
                rcases List.mem_cons.mp hq with hq | hq
                · subst hq; exact hpk.2
                · exact ihrest q hq hqe
              · rcases ihmem with ⟨a, ha, hra⟩ | ⟨n, hn, hne, hnk⟩
                · obtain rfl : res = (mkKey now p.1 p.2, p.1) :=
                    hra.trans (Option.some_inj.mp ha).symm
                  exact Or.inr ⟨p.2, List.mem_cons_self _ _, hev, rfl⟩
                · exact Or.inr ⟨n, List.mem_cons_of_mem _ hn, hne, hnk⟩
            · rw [scanStep_keep now hev (Bool.eq_false_iff.mpr hbet)] at h
              obtain ⟨ihacc, ihrest, ihmem⟩ := ih _ _ h
              have hck := ihacc cur rfl
              refine ⟨?_, ?_, ?_⟩
              · intro a ha
                obtain rfl : a = cur := (Option.some_inj.mp ha).symm
                exact hck
              · intro q hq hqe
                rcases List.mem_cons.mp hq with hq | hq
                · subst hq
                  rcases hck.1 with hres | hres
                  · rw [hres]
                    exact Bool.eq_false_iff.mpr hbet
                  · by_contra hcon
                    rw [Bool.not_eq_false] at hcon
                    exact hbet (better_trans hcon hres)
                · exact ihrest q hq hqe
              · rcases ihmem with hl | ⟨n, hn, hne, hnk⟩
                · exact Or.inl hl
                · exact Or.inr ⟨n, List.mem_cons_of_mem _ hn, hne, hnk⟩
      · rw [scanStep_not_ev now acc (Bool.eq_false_iff.mpr hev)] at h
        obtain ⟨ihacc, ihrest, ihmem⟩ := ih _ _ h
        refine ⟨ihacc, ?_, ?_⟩
        · intro q hq hqe
          rcases List.mem_cons.mp hq with hq | hq
          · subst hq; exact absurd hqe hev
          · exact ihrest q hq hqe
        · rcases ihmem with hl | ⟨n, hn, hne, hnk⟩
          · exact Or.inl hl
          · exact Or.inr ⟨n, List.mem_cons_of_mem _ hn, hne, hnk⟩

end LRUKReplacer

/-! ### Node-level facts -/

namespace LRUKNode

/-- Recording an access never changes the evictable flag. -/
lemma record_access_is_evictable (n : LRUKNode) (ts : Nat) :
    (n.record_access ts).is_evictable = n.is_evictable := by
  unfold record_access
  split <;> rfl

/-- Recording an access never changes the node's `k`. -/
lemma record_access_k (n : LRUKNode) (ts : Nat) :
    (n.record_access ts).k = n.k := by
  unfold record_access
  split <;> rfl

/-- At a full history, recording drops the oldest entry and appends. -/
lemma record_access_full (n : LRUKNode) (ts : Nat)
    (h : n.history.length = n.k) :
    (n.record_access ts).history = n.history.tail ++ [ts] := by
  unfold record_access
  rw [if_pos h]

/-- Below a full history, recording appends. -/
lemma record_access_not_full (n : LRUKNode) (ts : Nat)
    (h : n.history.length ≠ n.k) :
    (n.record_access ts).history = n.history ++ [ts] := by
  unfold record_access
  rw [if_neg h]

/-- History length after recording an access into a nonempty history:
capped at `k`, grown by one below `k`. -/
lemma record_access_length (n : LRUKNode) (ts : Nat)
    (h1 : 1 ≤ n.history.length) :
    (n.record_access ts).history.length =
      if n.history.length = n.k then n.history.length
      else n.history.length + 1 := by
  by_cases h : n.history.length = n.k
  · rw [record_access_full n ts h, if_pos h]
    simp [List.length_tail]
    omega
  · rw [record_access_not_full n ts h, if_neg h]
    simp

/-- The first access recorded into a fresh node yields a singleton
history. -/
lemma new_record_access (k ts : Nat) :
    ((LRUKNode.new k).record_access ts).history = [ts] := by
  unfold LRUKNode.new record_access
  split <;> simp_all

end LRUKNode

namespace LRUKReplacer

lemma record_access_found (r : LRUKReplacer) {fid : FrameId} {node : LRUKNode}
    (hfind : findNode fid r.node_store = some node) :
    r.record_access fid = (Except.ok (),
      { r with current_timestamp := tick r.current_timestamp,
               node_store := updateNode fid
                 (node.record_access (tick r.current_timestamp)) r.node_store }) := by
  simp [record_access, hfind]

lemma record_access_reject (r : LRUKReplacer) {fid : FrameId}
    (hfind : findNode fid r.node_store = none)
    (hcap : r.capacity ≤ r.node_store.length) :
    r.record_access fid =
      (Except.error (CustomError.Internal "replacer bookkeeping exceeds capacity"),
       { r with current_timestamp := tick r.current_timestamp }) := by
  simp [record_access, hfind, hcap]

lemma record_access_insert (r : LRUKReplacer) {fid : FrameId}
    (hfind : findNode fid r.node_store = none)
    (hcap : r.node_store.length < r.capacity) :
    r.record_access fid = (Except.ok (),
      { r with current_timestamp := tick r.current_timestamp,
               node_store := r.node_store ++
                 [(fid, (LRUKNode.new r.k).record_access
                     (tick r.current_timestamp))] }) := by
  have hnc : ¬ r.node_store.length ≥ r.capacity := by omega
  simp [record_access, hfind, hnc]

lemma set_evictable_not_found (r : LRUKReplacer) {fid : FrameId} (flag : Bool)
    (hfind : findNode fid r.node_store = none) :
    r.set_evictable fid flag =
      (Except.error (CustomError.Internal "frame not found"), r) := by
  simp [set_evictable, hfind]

lemma set_evictable_found (r : LRUKReplacer) {fid : FrameId} {node : LRUKNode}
    (flag : Bool) (hfind : findNode fid r.node_store = some node) :
    r.set_evictable fid flag = (Except.ok (),
      { r with
          node_store := updateNode fid { node with is_evictable := flag } r.node_store,
          current_size :=
            if node.is_evictable = false ∧ flag = true then r.current_size + 1
            else if node.is_evictable = true ∧ flag = false then r.current_size - 1
            else r.current_size }) := by
  simp [set_evictable, hfind]

lemma remove_not_found (r : LRUKReplacer) {fid : FrameId}
    (hfind : findNode fid r.node_store = none) :
    r.remove fid = (Except.ok (), r) := by
  simp [remove, hfind]

lemma remove_pinned (r : LRUKReplacer) {fid : FrameId} {node : LRUKNode}
    (hfind : findNode fid r.node_store = some node)
    (hev : node.is_evictable = false) :
    r.remove fid =
      (Except.error (CustomError.Internal "frame is not evictable"), r) := by
  simp [remove, hfind, hev]

lemma remove_found (r : LRUKReplacer) {fid : FrameId} {node : LRUKNode}
    (hfind : findNode fid r.node_store = some node)
    (hev : node.is_evictable = true) :
    r.remove fid = (Except.ok (),
      { r with node_store := eraseNode fid r.node_store,
               current_size := r.current_size - 1 }) := by
  simp [remove, hfind, hev]

lemma evict_none (r : LRUKReplacer)
    (hscan : scanBest r.current_timestamp r.node_store none = none) :
    r.evict = (none, r) := by
  simp [evict, hscan]

lemma evict_some (r : LRUKReplacer) {res : Key × FrameId}
    (hscan : scanBest r.current_timestamp r.node_store none = some res) :
    r.evict = (some res.2, (r.remove res.2).2) := by
  obtain ⟨key, v⟩ := res
  unfold evict
  rw [hscan]
  show (some v,
    match r.remove v with
    | (Except.ok _, r2) => r2
    | (Except.error _, r2) => r2) = (some v, (r.remove v).2)
  cases hrem : r.remove v with
  | mk e r2 => cases e <;> rfl

end LRUKReplacer

/-! ### The state invariant and reachability -/

namespace LRUKReplacer

/-- `record_access` preserves the invariant. -/
lemma record_access_inv {r : LRUKReplacer} (hinv : Inv r) (fid : FrameId) :
    Inv (r.record_access fid).2 := by
  cases hfind : findNode fid r.node_store with
  | some node =>
      rw [record_access_found r hfind]
      have hmem := findNode_some_mem hfind
      refine ⟨?_, ?_, hinv.k_pos, ?_, ?_⟩
      · show ((updateNode fid _ r.node_store).map Prod.fst).Nodup
        rw [updateNode_map_fst]
        exact hinv.nodup
      · show r.current_size = countEvictable (updateNode fid _ r.node_store)
        have hcnt := countEvictable_update
          (node.record_access (tick r.current_timestamp)) hfind
        rw [LRUKNode.record_access_is_evictable] at hcnt
        have hsz := hinv.size_eq
        omega
      · intro p hp
        rcases mem_updateNode hp with rfl | hp
        · show (node.record_access _).k = r.k
          rw [LRUKNode.record_access_k]
          exact hinv.node_k _ hmem
        · exact hinv.node_k p hp
      · intro p hp
        rcases mem_updateNode hp with rfl | hp
        · have hn : 1 ≤ node.history.length ∧ node.history.length ≤ node.k :=
            hinv.hist_len _ hmem
          have hlen := LRUKNode.record_access_length node
            (tick r.current_timestamp) hn.1
          have h2 := hn.2
          constructor
          · rw [hlen]
            split <;> omega
          · rw [hlen, LRUKNode.record_access_k]
            split <;> omega
        · exact hinv.hist_len p hp
  | none =>
      by_cases hcap : r.capacity ≤ r.node_store.length
      · rw [record_access_reject r hfind hcap]
        exact ⟨hinv.nodup, hinv.size_eq, hinv.k_pos, hinv.node_k, hinv.hist_len⟩
      · have hlt : r.node_store.length < r.capacity := by omega
        rw [record_access_insert r hfind hlt]
        refine ⟨?_, ?_, hinv.k_pos, ?_, ?_⟩
        · show ((r.node_store ++ [(fid, _)]).map Prod.fst).Nodup
          rw [List.map_append, List.nodup_append]
          refine ⟨hinv.nodup, by simp, ?_⟩
          intro x hx hmem
          simp only [List.map_cons, List.map_nil, List.mem_singleton] at hmem
          subst hmem
          rw [findNode_none_iff] at hfind
          rcases List.mem_map.mp hx with ⟨p, hp, hpf⟩
          exact hfind p hp hpf
        · show r.current_size = countEvictable (r.node_store ++ [(fid, _)])
          rw [countEvictable_append_single]
          have hev : ((LRUKNode.new r.k).record_access
              (tick r.current_timestamp)).is_evictable = false := by
            rw [LRUKNode.record_access_is_evictable]
            rfl
          rw [hev]
          simpa using hinv.size_eq
        · intro p hp
          rcases List.mem_append.mp hp with hp | hp
          · exact hinv.node_k p hp
          · obtain rfl : p = (fid, (LRUKNode.new r.k).record_access
                (tick r.current_timestamp)) := by simpa using hp
            show ((LRUKNode.new r.k).record_access _).k = r.k
            rw [LRUKNode.record_access_k]
            rfl
        · intro p hp
          rcases List.mem_append.mp hp with hp | hp
          · exact hinv.hist_len p hp
          · obtain rfl : p = (fid, (LRUKNode.new r.k).record_access
                (tick r.current_timestamp)) := by simpa using hp
            have hk := hinv.k_pos
            constructor
            · show 1 ≤ ((LRUKNode.new r.k).record_access _).history.length
              rw [LRUKNode.new_record_access]
              simp
            · show ((LRUKNode.new r.k).record_access _).history.length ≤
                ((LRUKNode.new r.k).record_access _).k
              rw [LRUKNode.new_record_access, LRUKNode.record_access_k]
              simpa [LRUKNode.new] using hk

/-- `set_evictable` preserves the invariant. -/
lemma set_evictable_inv {r : LRUKReplacer} (hinv : Inv r) (fid : FrameId)
    (flag : Bool) : Inv (r.set_evictable fid flag).2 := by
  cases hfind : findNode fid r.node_store with
  | none =>
      rw [set_evictable_not_found r flag hfind]
      exact hinv
  | some node =>
      rw [set_evictable_found r flag hfind]
      have hmem := findNode_some_mem hfind
      refine ⟨?_, ?_, hinv.k_pos, ?_, ?_⟩
      · show ((updateNode fid _ r.node_store).map Prod.fst).Nodup
        rw [updateNode_map_fst]
        exact hinv.nodup
      · have hcnt := countEvictable_update { node with is_evictable := flag } hfind
        have hsz := hinv.size_eq
        have hpos : node.is_evictable = true → 1 ≤ countEvictable r.node_store :=
          countEvictable_pos hfind
        simp only at hcnt
        show (if node.is_evictable = false ∧ flag = true then r.current_size + 1
          else if node.is_evictable = true ∧ flag = false then r.current_size - 1
          else r.current_size) = countEvictable (updateNode fid _ r.node_store)
        cases hne : node.is_evictable <;> cases flag <;> simp_all <;> omega
      · intro p hp
        rcases mem_updateNode hp with rfl | hp
        · simpa using hinv.node_k _ hmem
        · exact hinv.node_k p hp
      · intro p hp
        rcases mem_updateNode hp with rfl | hp
        · simpa using hinv.hist_len _ hmem
        · exact hinv.hist_len p hp

/-- `remove` preserves the invariant. -/
lemma remove_inv {r : LRUKReplacer} (hinv : Inv r) (fid : FrameId) :
    Inv (r.remove fid).2 := by
  cases hfind : findNode fid r.node_store with
  | none =>
      rw [remove_not_found r hfind]
      exact hinv
  | some node =>
      cases hne : node.is_evictable with
      | false =>
          rw [remove_pinned r hfind hne]
          exact hinv
      | true =>
          rw [remove_found r hfind hne]
          refine ⟨?_, ?_, hinv.k_pos, ?_, ?_⟩
          · exact List.Nodup.sublist
              ((eraseNode_sublist fid r.node_store).map Prod.fst) hinv.nodup
          · have hcnt := countEvictable_erase hfind
            have hpos := countEvictable_pos hfind hne
            have hsz := hinv.size_eq
            show r.current_size - 1 = countEvictable (eraseNode fid r.node_store)
            rw [hne] at hcnt
            simp at hcnt
            omega
          · intro p hp
            exact hinv.node_k p ((eraseNode_sublist fid r.node_store).subset hp)
          · intro p hp
            exact hinv.hist_len p ((eraseNode_sublist fid r.node_store).subset hp)

/-- The state `evict` leaves behind is either the input state or the
state `remove` leaves for the victim. -/
lemma evict_state (r : LRUKReplacer) :
    (r.evict).2 = r ∨ ∃ v, (r.evict).2 = (r.remove v).2 := by
  cases hscan : scanBest r.current_timestamp r.node_store none with
  | none =>
      rw [evict_none r hscan]
      exact Or.inl rfl
  | some res =>
      rw [evict_some r hscan]
      exact Or.inr ⟨res.2, rfl⟩

/-- `evict` preserves the invariant. -/
lemma evict_inv {r : LRUKReplacer} (hinv : Inv r) : Inv (r.evict).2 := by
  rcases evict_state r with h | ⟨v, h⟩
  · rwa [h]
  · rw [h]
    exact remove_inv hinv v

/-- Every reachable state satisfies the invariant. -/
lemma reachable_inv {r : LRUKReplacer} (h : Reachable r) : Inv r := by
  induction h with
  | init capacity k hc hk =>
      exact ⟨by simp [new], by simp [new, countEvictable], hk,
        by simp [new], by simp [new]⟩
  | record r fid _ ih => exact record_access_inv ih fid
  | set_ev r fid b _ ih => exact set_evictable_inv ih fid b
  | rem r fid _ ih => exact remove_inv ih fid
  | evict_step r _ ih => exact evict_inv ih

end LRUKReplacer

/-! ### Clock effects of each operation -/

namespace LRUKReplacer

/-- `record_access` always sets the clock to `tick` of the old clock,
on every control path (tracked, newly inserted, or rejected). -/
lemma record_access_clock (r : LRUKReplacer) (fid : FrameId) :
    (r.record_access fid).2.current_timestamp = tick r.current_timestamp := by
  cases hfind : findNode fid r.node_store with
  | some node => rw [record_access_found r hfind]
  | none =>
      by_cases hcap : r.capacity ≤ r.node_store.length
      · rw [record_access_reject r hfind hcap]
      · rw [record_access_insert r hfind (by omega)]

/-- `set_evictable` never changes the clock. -/
lemma set_evictable_clock (r : LRUKReplacer) (fid : FrameId) (flag : Bool) :
    (r.set_evictable fid flag).2.current_timestamp = r.current_timestamp := by
  cases hfind : findNode fid r.node_store with
  | none => rw [set_evictable_not_found r flag hfind]
  | some node => rw [set_evictable_found r flag hfind]

/-- `remove` never changes the clock. -/
lemma remove_clock (r : LRUKReplacer) (fid : FrameId) :
    (r.remove fid).2.current_timestamp = r.current_timestamp := by
  cases hfind : findNode fid r.node_store with
  | none => rw [remove_not_found r hfind]
  | some node =>
      cases hne : node.is_evictable with
      | false => rw [remove_pinned r hfind hne]
      | true => rw [remove_found r hfind hne]

/-- `evict` never changes the clock. -/
lemma evict_clock (r : LRUKReplacer) :
    (r.evict).2.current_timestamp = r.current_timestamp := by
  rcases evict_state r with h | ⟨v, h⟩
  · rw [h]
  · rw [h, remove_clock]

end LRUKReplacer

/-! ### Sorted histories below the clock-overflow point -/

namespace LRUKReplacer

/-- A no-wrap-reachable state is reachable. -/
lemma reachableNW_reachable {r : LRUKReplacer} (h : ReachableNW r) :
    Reachable r := by
  induction h with
  | init capacity k hc hk => exact Reachable.init capacity k hc hk
  | record r fid _ _ ih => exact Reachable.record r fid ih
  | set_ev r fid b _ ih => exact Reachable.set_ev r fid b ih
  | rem r fid _ ih => exact Reachable.rem r fid ih
  | evict_step r _ ih => exact Reachable.evict_step r ih

/-- Appending a strict upper bound to a strictly increasing list keeps it
strictly increasing. -/
lemma chain_lt_append {l : List Nat} {ts : Nat}
    (hc : List.Chain' (fun a b => a < b) l) (hall : ∀ t ∈ l, t < ts) :
    List.Chain' (fun a b => a < b) (l ++ [ts]) := by
  rw [List.chain'_append]
  refine ⟨hc, by simp, ?_⟩
  intro x hx y hy
  simp only [List.head?_cons, Option.mem_def, Option.some.injEq] at hy
  subst hy
  exact hall x (List.mem_of_mem_getLast? hx)

/-- `record_access` preserves the no-wrap invariant while the clock is
below the overflow point. -/
lemma record_access_invNW {r : LRUKReplacer} (hnw : InvNW r)
    (hts : r.current_timestamp < U64_MAX) (fid : FrameId) :
    InvNW (r.record_access fid).2 := by
  have htick : tick r.current_timestamp = r.current_timestamp + 1 := by
    simp [tick, hts]
  cases hfind : findNode fid r.node_store with
  | some node =>
      rw [record_access_found r hfind, htick]
      have hmem := findNode_some_mem hfind
      have hold : ∀ u ∈ node.history, u ≤ r.current_timestamp :=
        hnw.ts_le _ hmem
      have hsort : List.Chain' (fun a b => a < b) node.history :=
        hnw.sorted _ hmem
      constructor
      · intro p hp t ht
        rcases mem_updateNode hp with rfl | hp
        · show t ≤ r.current_timestamp + 1
          by_cases hfull : node.history.length = node.k
          · rw [LRUKNode.record_access_full node _ hfull] at ht
            rcases List.mem_append.mp ht with ht | ht
            · have : t ∈ node.history := List.mem_of_mem_tail ht
              have := hold t this
              omega
            · simp at ht
              omega
          · rw [LRUKNode.record_access_not_full node _ hfull] at ht
            rcases List.mem_append.mp ht with ht | ht
            · have := hold t ht
              omega
            · simp at ht
              omega
        · have := hnw.ts_le p hp t ht
          show t ≤ r.current_timestamp + 1
          omega
      · intro p hp
        rcases mem_updateNode hp with rfl | hp
        · show List.Chain' (fun a b => a < b)
            (node.record_access (r.current_timestamp + 1)).history
          by_cases hfull : node.history.length = node.k
          · rw [LRUKNode.record_access_full node _ hfull]
            refine chain_lt_append (List.Chain'.tail hsort) ?_
            intro t ht
            have := hold t (List.mem_of_mem_tail ht)
            omega
          · rw [LRUKNode.record_access_not_full node _ hfull]
            refine chain_lt_append hsort ?_
            intro t ht
            have := hold t ht
            omega
        · exact hnw.sorted p hp
  | none =>
      by_cases hcap : r.capacity ≤ r.node_store.length
      · rw [record_access_reject r hfind hcap, htick]
        constructor
        · intro p hp t ht
          have := hnw.ts_le p hp t ht
          show t ≤ r.current_timestamp + 1
          omega
        · exact hnw.sorted
      · rw [record_access_insert r hfind (by omega), htick]
        constructor
        · intro p hp t ht
          rcases List.mem_append.mp hp with hp | hp
          · have := hnw.ts_le p hp t ht
            show t ≤ r.current_timestamp + 1
            omega
          · obtain rfl : p = (fid, (LRUKNode.new r.k).record_access
                (r.current_timestamp + 1)) := by simpa using hp
            rw [show ((fid, (LRUKNode.new r.k).record_access
                (r.current_timestamp + 1))).2 = (LRUKNode.new r.k).record_access
                (r.current_timestamp + 1) from rfl,
              LRUKNode.new_record_access] at ht
            simp at ht
            show t ≤ r.current_timestamp + 1
            omega
        · intro p hp
          rcases List.mem_append.mp hp with hp | hp
          · exact hnw.sorted p hp
          · obtain rfl : p = (fid, (LRUKNode.new r.k).record_access
                (r.current_timestamp + 1)) := by simpa using hp
            show List.Chain' (fun a b => a < b)
              ((LRUKNode.new r.k).record_access (r.current_timestamp + 1)).history
            rw [LRUKNode.new_record_access]
            simp

/-- `set_evictable` preserves the no-wrap invariant. -/
lemma set_evictable_invNW {r : LRUKReplacer} (hnw : InvNW r) (fid : FrameId)
    (flag : Bool) : InvNW (r.set_evictable fid flag).2 := by
  cases hfind : findNode fid r.node_store with
  | none =>
      rw [set_evictable_not_found r flag hfind]
      exact hnw
  | some node =>
      rw [set_evictable_found r flag hfind]
      have hmem := findNode_some_mem hfind
      constructor
      · intro p hp t ht
        rcases mem_updateNode hp with rfl | hp
        · exact hnw.ts_le (fid, node) hmem t ht
        · exact hnw.ts_le p hp t ht
      · intro p hp
        rcases mem_updateNode hp with rfl | hp
        · exact hnw.sorted (fid, node) hmem
        · exact hnw.sorted p hp

/-- `remove` preserves the no-wrap invariant. -/
lemma remove_invNW {r : LRUKReplacer} (hnw : InvNW r) (fid : FrameId) :
    InvNW (r.remove fid).2 := by
  cases hfind : findNode fid r.node_store with
  | none =>
      rw [remove_not_found r hfind]
      exact hnw
  | some node =>
      cases hne : node.is_evictable with
      | false =>
          rw [remove_pinned r hfind hne]
          exact hnw
      | true =>
          rw [remove_found r hfind hne]
          constructor
          · intro p hp t ht
            exact hnw.ts_le p ((eraseNode_sublist fid r.node_store).subset hp) t ht
          · intro p hp
            exact hnw.sorted p ((eraseNode_sublist fid r.node_store).subset hp)

/-- `evict` preserves the no-wrap invariant. -/
lemma evict_invNW {r : LRUKReplacer} (hnw : InvNW r) : InvNW (r.evict).2 := by
  rcases evict_state r with h | ⟨v, h⟩
  · rwa [h]
  · rw [h]
    exact remove_invNW hnw v

/-- Every state reachable without clock overflow satisfies the no-wrap
invariant; in particular histories are strictly increasing there. -/
lemma reachableNW_invNW {r : LRUKReplacer} (h : ReachableNW r) : InvNW r := by
  induction h with
  | init capacity k hc hk => exact ⟨by simp [new], by simp [new]⟩
  | record r fid hts _ ih => exact record_access_invNW ih hts fid
  | set_ev r fid b _ ih => exact set_evictable_invNW ih fid b
  | rem r fid _ ih => exact remove_invNW ih fid
  | evict_step r _ ih => exact evict_invNW ih

end LRUKReplacer

/-! ### Iterated accesses up to the clock-overflow point -/

namespace LRUKReplacer

/-- Unfolding one iteration. -/
lemma iterAccess_succ (fid : FrameId) (n : Nat) (r : LRUKReplacer) :
    iterAccess fid (n + 1) r = ((iterAccess fid n r).record_access fid).2 := rfl

/-- Iterated accesses of a reachable state are reachable. -/
lemma iterAccess_reachable {r : LRUKReplacer} (fid : FrameId) (n : Nat)
    (h : Reachable r) : Reachable (iterAccess fid n r) := by
  induction n with
  | zero => exact h
  | succ m ih => exact Reachable.record _ fid ih
/-- Explicit state after `n` accesses of frame 1 on a fresh capacity-1,
`k = 2` replacer, for `2 ≤ n` up to the clock maximum. -/
lemma iterAccess_state (n : Nat) (h2 : 2 ≤ n) (hn : n ≤ U64_MAX) :
    iterAccess 1 n (LRUKReplacer.new 1 2) =
      { current_size := 0, capacity := 1, k := 2,
        node_store := [(1, { k := 2, history := [n - 1, n], is_evictable := false })],
        current_timestamp := n } := by
  induction n with
  | zero => omega
  | succ m ih =>
      by_cases hm : m + 1 = 2
      · rw [hm]
        have h0 : (0 : Nat) < U64_MAX := by norm_num [U64_MAX]
        have h1U : (1 : Nat) < U64_MAX := by norm_num [U64_MAX]
        show (((LRUKReplacer.new 1 2).record_access 1).2.record_access 1).2 = _
        rw [record_access_insert (LRUKReplacer.new 1 2) (by rfl) Nat.zero_lt_one]
        rw [record_access_found _ (by rfl)]
        simp [tick, h0, h1U, updateNode, LRUKNode.record_access,
          LRUKNode.new, LRUKReplacer.new]
      · have hm2 : 2 ≤ m := by omega
        have hmU : m ≤ U64_MAX := by omega
        have hstate := ih hm2 hmU
        have hlt : m < U64_MAX := by omega
        show ((iterAccess 1 m (LRUKReplacer.new 1 2)).record_access 1).2 = _
        rw [hstate]
        rw [record_access_found _ (by rfl)]
        simp [tick, hlt, updateNode, LRUKNode.record_access]

/-- One more access past the clock maximum: the clock wraps to 0 and the
history becomes `[U64_MAX, 0]`, which is no longer increasing. -/
lemma iterAccess_wrap :
    iterAccess 1 (U64_MAX + 1) (LRUKReplacer.new 1 2) =
      { current_size := 0, capacity := 1, k := 2,
        node_store := [(1, { k := 2, history := [U64_MAX, 0], is_evictable := false })],
        current_timestamp := 0 } := by
  have h2 : 2 ≤ U64_MAX := by
    rw [show U64_MAX = 2 ^ 64 - 1 from rfl]
    norm_num
  have hstate := iterAccess_state U64_MAX h2 (le_refl _)
  have hnlt : ¬ U64_MAX < U64_MAX := by omega
  rw [iterAccess_succ, hstate]
  rw [record_access_found _ (by rfl)]
  simp [tick, hnlt, updateNode, LRUKNode.record_access]

end LRUKReplacer

/-! ### Claim theorems -/

/-- C4: for every state reachable through any sequence of operations from
a fresh replacer, `size()` equals the number of registry entries whose
evictable flag is true, obtained by full scan: the stored count never
drifts. -/
theorem size_equals_scan_count (r : LRUKReplacer)
    (h : LRUKReplacer.Reachable r) :
    r.size = countEvictable r.node_store :=
  (LRUKReplacer.reachable_inv h).size_eq

/-- Witness for C4 at a concrete reachable state. -/
theorem size_equals_scan_count_witness :
    ((((LRUKReplacer.new 2 2).record_access 1).2.set_evictable 1 true).2.size =
      countEvictable
        ((((LRUKReplacer.new 2 2).record_access 1).2.set_evictable 1 true).2.node_store)) :=
  size_equals_scan_count _
    (LRUKReplacer.Reachable.set_ev _ 1 true
      (LRUKReplacer.Reachable.record _ 1
        (LRUKReplacer.Reachable.init 2 2 (by norm_num) (by norm_num))))

/-- C5: `evict` never returns a frame whose evictable flag is false, and
when no tracked frame is evictable it returns an absent victim with the
state unchanged. -/
theorem evict_only_evictable (r : LRUKReplacer) :
    (∀ v, (r.evict).1 = some v →
      ∃ n, (v, n) ∈ r.node_store ∧ n.is_evictable = true) ∧
    ((∀ p ∈ r.node_store, p.2.is_evictable = false) → r.evict = (none, r)) := by
  constructor
  · intro v hv
    cases hscan : LRUKReplacer.scanBest r.current_timestamp r.node_store none with
    | none =>
        rw [LRUKReplacer.evict_none r hscan] at hv
        simp at hv
    | some res =>
        rw [LRUKReplacer.evict_some r hscan] at hv
        obtain rfl : res.2 = v := by simpa using hv
        obtain ⟨_, _, hmem⟩ :=
          LRUKReplacer.scanBest_spec r.current_timestamp r.node_store none res hscan
        rcases hmem with ⟨a, ha, _⟩ | ⟨n, hn, hne, _⟩
        · simp at ha
        · exact ⟨n, hn, hne⟩
  · intro hall
    exact LRUKReplacer.evict_none r
      (LRUKReplacer.scanBest_of_none_evictable r.current_timestamp r.node_store none hall)

/-- Witness for C5: a state whose only candidate is evictable, and a
state with a tracked but pinned frame on which `evict` is a no-op. -/
theorem evict_only_evictable_witness :
    (∃ n, (1, n) ∈
        ({ current_size := 1, capacity := 4, k := 2, node_store := [(1, { k := 2, history := [1], is_evictable := true })], current_timestamp := 1 } : LRUKReplacer).node_store ∧
       n.is_evictable = true) ∧
    (({ current_size := 0, capacity := 4, k := 2, node_store := [(3, { k := 2, history := [1], is_evictable := false })], current_timestamp := 1 } : LRUKReplacer).evict =
      (none, { current_size := 0, capacity := 4, k := 2, node_store := [(3, { k := 2, history := [1], is_evictable := false })], current_timestamp := 1 })) :=
  ⟨(evict_only_evictable _).1 1 (by decide),
   (evict_only_evictable _).2 (by decide)⟩

/-- C6: `remove` succeeds as a no-op on an untracked frame (so a double
call is safe), fails without mutation on a tracked pinned frame, and on a
tracked evictable frame deletes the entry and decrements the evictable
count by exactly one. -/
theorem remove_spec (r : LRUKReplacer) (fid : FrameId) :
    (findNode fid r.node_store = none →
       r.remove fid = (Except.ok (), r) ∧
       ((r.remove fid).2.remove fid = (Except.ok (), r))) ∧
    (∀ n, findNode fid r.node_store = some n → n.is_evictable = false →
       r.remove fid =
         (Except.error (CustomError.Internal "frame is not evictable"), r)) ∧
    (∀ n, findNode fid r.node_store = some n → n.is_evictable = true →
       (r.remove fid).1 = Except.ok () ∧
       (r.remove fid).2.node_store = eraseNode fid r.node_store ∧
       (r.remove fid).2.current_size = r.current_size - 1 ∧
       (r.current_size = countEvictable r.node_store →
         (r.remove fid).2.current_size + 1 = r.current_size)) := by
  refine ⟨?_, ?_, ?_⟩
  · intro hfind
    have h1 := LRUKReplacer.remove_not_found r hfind
    rw [h1]
    exact ⟨rfl, h1⟩
  · intro n hfind hev
    exact LRUKReplacer.remove_pinned r hfind hev
  · intro n hfind hev
    rw [LRUKReplacer.remove_found r hfind hev]
    refine ⟨rfl, rfl, rfl, ?_⟩
    intro hsz
    have hpos := countEvictable_pos hfind hev
    show r.current_size - 1 + 1 = r.current_size
    omega

/-- Witness for C6: the three branches exercised on concrete states. -/
theorem remove_spec_witness :
    (({ current_size := 1, capacity := 4, k := 2, node_store := [(7, { k := 2, history := [1], is_evictable := true }), (8, { k := 2, history := [2], is_evictable := false })], current_timestamp := 2 } : LRUKReplacer).remove 99 =
      (Except.ok (), { current_size := 1, capacity := 4, k := 2, node_store := [(7, { k := 2, history := [1], is_evictable := true }), (8, { k := 2, history := [2], is_evictable := false })], current_timestamp := 2 })) ∧
    (({ current_size := 1, capacity := 4, k := 2, node_store := [(7, { k := 2, history := [1], is_evictable := true }), (8, { k := 2, history := [2], is_evictable := false })], current_timestamp := 2 } : LRUKReplacer).remove 8 =
      (Except.error (CustomError.Internal "frame is not evictable"),
       { current_size := 1, capacity := 4, k := 2, node_store := [(7, { k := 2, history := [1], is_evictable := true }), (8, { k := 2, history := [2], is_evictable := false })], current_timestamp := 2 })) ∧
    ((({ current_size := 1, capacity := 4, k := 2, node_store := [(7, { k := 2, history := [1], is_evictable := true }), (8, { k := 2, history := [2], is_evictable := false })], current_timestamp := 2 } : LRUKReplacer).remove 7).2.current_size + 1 = 1) :=
  ⟨((remove_spec _ 99).1 (by decide)).1,
   (remove_spec _ 8).2.1 { k := 2, history := [2], is_evictable := false }
     (by decide) (by decide),
   ((remove_spec _ 7).2.2 { k := 2, history := [1], is_evictable := true }
     (by decide) (by decide)).2.2.2 (by decide)⟩

/-- C8: every `record_access` call advances the clock, incrementing by
exactly one below the `u64` maximum and wrapping to 0 at the maximum, and
a `record_access` failure can only be the capacity check on a new frame —
never the clock update. -/
theorem clock_tick_spec (r : LRUKReplacer) (fid : FrameId) :
    (r.current_timestamp < U64_MAX →
      (r.record_access fid).2.current_timestamp = r.current_timestamp + 1) ∧
    (r.current_timestamp = U64_MAX →
      (r.record_access fid).2.current_timestamp = 0) ∧
    (∀ e, (r.record_access fid).1 = Except.error e →
      findNode fid r.node_store = none ∧ r.capacity ≤ r.node_store.length) := by
  refine ⟨?_, ?_, ?_⟩
  · intro h
    rw [LRUKReplacer.record_access_clock]
    simp [LRUKReplacer.tick, h]
  · intro h
    rw [LRUKReplacer.record_access_clock]
    simp [LRUKReplacer.tick, h]
  · intro e he
    cases hfind : findNode fid r.node_store with
    | some node =>
        rw [LRUKReplacer.record_access_found r hfind] at he
        simp at he
    | none =>
        by_cases hcap : r.capacity ≤ r.node_store.length
        · exact ⟨rfl, hcap⟩
        · rw [LRUKReplacer.record_access_insert r hfind (by omega)] at he
          simp at he

/-- Witness for C8: an increment below the maximum, the wrap at the
maximum, and a capacity failure with its provenance. -/
theorem clock_tick_spec_witness :
    ((((LRUKReplacer.new 2 2).record_access 1).2.current_timestamp = 0 + 1)) ∧
    (({ current_size := 0, capacity := 2, k := 2, node_store := [], current_timestamp := U64_MAX } : LRUKReplacer).record_access 1).2.current_timestamp = 0 ∧
    (findNode 2 (({ current_size := 0, capacity := 1, k := 1, node_store := [(1, { k := 1, history := [1], is_evictable := false })], current_timestamp := 1 } : LRUKReplacer)).node_store = none ∧
      ({ current_size := 0, capacity := 1, k := 1, node_store := [(1, { k := 1, history := [1], is_evictable := false })], current_timestamp := 1 } : LRUKReplacer).capacity ≤
        [(1, ({ k := 1, history := [1], is_evictable := false } : LRUKNode))].length) :=
  ⟨(clock_tick_spec (LRUKReplacer.new 2 2) 1).1 (by norm_num [U64_MAX, LRUKReplacer.new]),
   (clock_tick_spec _ 1).2.1 rfl,
   (clock_tick_spec _ 2).2.2
     (CustomError.Internal "replacer bookkeeping exceeds capacity") (by rfl)⟩

/-- C9: the K-distance computed by `evict` for a frame that has reached
`k` recorded accesses is the clock minus the K-th most recent timestamp
when the clock is at least that timestamp, and saturates to 0 when the
timestamp exceeds the clock. -/
theorem k_distance_saturating_spec (now fid : Nat) (n : LRUKNode) (t : Nat)
    (hk : n.kth_ts = some t) :
    (t ≤ now → (LRUKReplacer.mkKey now fid n).k_dist + t = now) ∧
    (now < t → (LRUKReplacer.mkKey now fid n).k_dist = 0) := by
  simp only [LRUKReplacer.mkKey, hk]
  constructor <;> intro h <;> omega

/-- Witness for C9: both sides of the saturation at concrete inputs. -/
theorem k_distance_saturating_spec_witness :
    ((LRUKReplacer.mkKey 10 1
        { k := 2, history := [3, 4], is_evictable := true }).k_dist + 3 = 10) ∧
    ((LRUKReplacer.mkKey 2 1
        { k := 2, history := [3, 4], is_evictable := true }).k_dist = 0) :=
  ⟨(k_distance_saturating_spec 10 1 _ 3 (by decide)).1 (by decide),
   (k_distance_saturating_spec 2 1 _ 3 (by decide)).2 (by decide)⟩

/-- C10: `set_evictable`, `remove` and `evict` leave the logical clock
unchanged (`size` reads no state at all in the embedding), while
`record_access` always changes it. -/
theorem clock_frame_conditions (r : LRUKReplacer) (fid : FrameId) (b : Bool) :
    (r.set_evictable fid b).2.current_timestamp = r.current_timestamp ∧
    (r.remove fid).2.current_timestamp = r.current_timestamp ∧
    (r.evict).2.current_timestamp = r.current_timestamp ∧
    (r.record_access fid).2.current_timestamp ≠ r.current_timestamp := by
  refine ⟨LRUKReplacer.set_evictable_clock r fid b,
    LRUKReplacer.remove_clock r fid, LRUKReplacer.evict_clock r, ?_⟩
  rw [LRUKReplacer.record_access_clock]
  unfold LRUKReplacer.tick
  have hU : 1 ≤ U64_MAX := by norm_num [U64_MAX]
  split_ifs with h <;> omega

/-- C1 counterexample: at a concrete reachable state at tracking
capacity, `record_access` of a new frame fails with the capacity error
but the logical clock does change (the code bumps the clock before the
capacity check), so the internal state is not "entirely unchanged". -/
theorem record_access_at_capacity_clock_cex :
    ((((LRUKReplacer.new 1 1).record_access 1).2.record_access 2).1 =
      Except.error (CustomError.Internal "replacer bookkeeping exceeds capacity")) ∧
    LRUKReplacer.Reachable (((LRUKReplacer.new 1 1).record_access 1).2) ∧
    ((((LRUKReplacer.new 1 1).record_access 1).2.record_access 2).2.current_timestamp ≠
      (((LRUKReplacer.new 1 1).record_access 1).2).current_timestamp) :=
  ⟨by rfl,
   LRUKReplacer.Reachable.record _ 1
     (LRUKReplacer.Reachable.init 1 1 (by norm_num) (by norm_num)),
   by decide⟩

/-- C1 (amended): when `frame_id` is untracked and the tracked count has
reached capacity, `record_access` fails with the capacity error; the
registry (hence histories and evictable flags), the evictable count, the
capacity and `k` are unchanged, while the logical clock is still advanced
by the normal tick. -/
theorem record_access_at_capacity_spec (r : LRUKReplacer) (fid : FrameId)
    (hfind : findNode fid r.node_store = none)
    (hcap : r.capacity ≤ r.node_store.length) :
    (r.record_access fid).1 =
      Except.error (CustomError.Internal "replacer bookkeeping exceeds capacity") ∧
    (r.record_access fid).2.node_store = r.node_store ∧
    (r.record_access fid).2.current_size = r.current_size ∧
    (r.record_access fid).2.capacity = r.capacity ∧
    (r.record_access fid).2.k = r.k ∧
    (r.record_access fid).2.current_timestamp =
      LRUKReplacer.tick r.current_timestamp := by
  rw [LRUKReplacer.record_access_reject r hfind hcap]
  exact ⟨rfl, rfl, rfl, rfl, rfl, rfl⟩

/-- Witness for amended C1 at the concrete state of the counterexample. -/
theorem record_access_at_capacity_spec_witness :
    ((((LRUKReplacer.new 1 1).record_access 1).2.record_access 2).2.node_store =
      (((LRUKReplacer.new 1 1).record_access 1).2).node_store) ∧
    ((((LRUKReplacer.new 1 1).record_access 1).2.record_access 2).2.current_timestamp =
      LRUKReplacer.tick
        (((LRUKReplacer.new 1 1).record_access 1).2).current_timestamp) :=
  ⟨(record_access_at_capacity_spec _ 2 (by decide) (by decide)).2.1,
   (record_access_at_capacity_spec _ 2 (by decide) (by decide)).2.2.2.2.2⟩

/-- C3: an evictable frame below `k` recorded accesses always beats an
evictable frame that has reached `k` accesses, whatever the timestamps:
its sentinel distance compares strictly greater than any finite distance,
and `evict` therefore never picks the reached-`k` frame while the cold
one is present. -/
theorem evict_prefers_cold (r : LRUKReplacer) (A B : FrameId)
    (nA nB : LRUKNode) (t : Nat)
    (hclk : r.current_timestamp ≤ U64_MAX)
    (hnd : (r.node_store.map Prod.fst).Nodup)
    (hA : (A, nA) ∈ r.node_store) (hAev : nA.is_evictable = true)
    (hAcold : nA.kth_ts = none)
    (hB : (B, nB) ∈ r.node_store) (hBev : nB.is_evictable = true)
    (hBwarm : nB.kth_ts = some t) :
    LRUKReplacer.better (LRUKReplacer.mkKey r.current_timestamp A nA)
      (LRUKReplacer.mkKey r.current_timestamp B nB) = true ∧
    (r.evict).1.isSome = true ∧ (r.evict).1 ≠ some B := by
  have hsep : U64_MAX < U128_MAX := by norm_num [U64_MAX, U128_MAX]
  have hAd : (LRUKReplacer.mkKey r.current_timestamp A nA).k_dist = U128_MAX := by
    simp [LRUKReplacer.mkKey, hAcold]
  have hBd : (LRUKReplacer.mkKey r.current_timestamp B nB).k_dist =
      r.current_timestamp - t := by
    simp [LRUKReplacer.mkKey, hBwarm]
  have hbet : LRUKReplacer.better (LRUKReplacer.mkKey r.current_timestamp A nA)
      (LRUKReplacer.mkKey r.current_timestamp B nB) = true := by
    unfold LRUKReplacer.better
    rw [hAd, hBd]
    rw [if_pos (by omega : r.current_timestamp - t < U128_MAX)]
  obtain ⟨res, hres⟩ := Option.isSome_iff_exists.mp
    (LRUKReplacer.scanBest_isSome_of_mem r.current_timestamp r.node_store none
      (A, nA) hA hAev)
  have hev1 : (r.evict).1 = some res.2 := by
    rw [LRUKReplacer.evict_some r hres]
  refine ⟨hbet, by rw [hev1]; rfl, ?_⟩
  intro hcon
  rw [hev1] at hcon
  have hresB : res.2 = B := Option.some_inj.mp hcon
  obtain ⟨_, hopt, hmem⟩ :=
    LRUKReplacer.scanBest_spec r.current_timestamp r.node_store none res hres
  rcases hmem with ⟨a, ha, _⟩ | ⟨nv, hnv, hnve, hkey⟩
  · simp at ha
  · rw [hresB] at hnv hkey
    have h1 := findNode_of_mem_nodup hnd hnv
    have h2 := findNode_of_mem_nodup hnd hB
    rw [h1] at h2
    obtain rfl : nv = nB := Option.some_inj.mp h2
    have hfalse := hopt (A, nA) hA hAev
    rw [hkey] at hfalse
    rw [hfalse] at hbet
    exact Bool.false_ne_true hbet

/-- Witness for C3 at a concrete two-frame state: frame 1 is cold with
one access, frame 2 has reached `k = 2` accesses. -/
theorem evict_prefers_cold_witness :
    LRUKReplacer.better (LRUKReplacer.mkKey 3 1 { k := 2, history := [1], is_evictable := true })
      (LRUKReplacer.mkKey 3 2 { k := 2, history := [2, 3], is_evictable := true }) = true ∧
    (({ current_size := 2, capacity := 4, k := 2, node_store := [(1, { k := 2, history := [1], is_evictable := true }), (2, { k := 2, history := [2, 3], is_evictable := true })], current_timestamp := 3 } : LRUKReplacer).evict).1.isSome = true ∧
    (({ current_size := 2, capacity := 4, k := 2, node_store := [(1, { k := 2, history := [1], is_evictable := true }), (2, { k := 2, history := [2, 3], is_evictable := true })], current_timestamp := 3 } : LRUKReplacer).evict).1 ≠ some 2 :=
  evict_prefers_cold
    { current_size := 2, capacity := 4, k := 2, node_store := [(1, { k := 2, history := [1], is_evictable := true }), (2, { k := 2, history := [2, 3], is_evictable := true })], current_timestamp := 3 }
    1 2 { k := 2, history := [1], is_evictable := true }
    { k := 2, history := [2, 3], is_evictable := true } 2
    (by decide) (by decide) (by decide) (by decide)
    (by decide) (by decide) (by decide) (by decide)

/-- C2: on any state with distinct keys, an accurate evictable count and
at least one evictable frame, `evict` returns the frame whose key is
maximal among evictable entries under the three-level order — larger
`k_dist` first, then smaller most-recent timestamp, then smaller frame
id — removes exactly that entry from the registry, and decrements the
evictable count by one. -/
theorem evict_selects_maximal (r : LRUKReplacer)
    (hnd : (r.node_store.map Prod.fst).Nodup)
    (hsz : r.current_size = countEvictable r.node_store)
    (p : FrameId × LRUKNode) (hp : p ∈ r.node_store)
    (hev : p.2.is_evictable = true) :
    ∃ v nv, (r.evict).1 = some v ∧ (v, nv) ∈ r.node_store ∧
      nv.is_evictable = true ∧
      (∀ q ∈ r.node_store, q.2.is_evictable = true → q.1 ≠ v →
        LRUKReplacer.better (LRUKReplacer.mkKey r.current_timestamp v nv)
          (LRUKReplacer.mkKey r.current_timestamp q.1 q.2) = true) ∧
      (r.evict).2.node_store = eraseNode v r.node_store ∧
      (r.evict).2.current_size + 1 = r.current_size := by
  obtain ⟨res, hres⟩ := Option.isSome_iff_exists.mp
    (LRUKReplacer.scanBest_isSome_of_mem r.current_timestamp r.node_store none
      p hp hev)
  obtain ⟨_, hopt, hmem⟩ :=
    LRUKReplacer.scanBest_spec r.current_timestamp r.node_store none res hres
  rcases hmem with ⟨a, ha, _⟩ | ⟨nv, hnv, hnve, hkey⟩
  · simp at ha
  · have hfound : findNode res.2 r.node_store = some nv :=
      findNode_of_mem_nodup hnd hnv
    have hremove := LRUKReplacer.remove_found r hfound hnve
    have hstate : (r.evict).2 = (r.remove res.2).2 := by
      rw [LRUKReplacer.evict_some r hres]
    refine ⟨res.2, nv, ?_, hnv, hnve, ?_, ?_, ?_⟩
    · rw [LRUKReplacer.evict_some r hres]
    · intro q hq hqe hne
      have hnb := hopt q hq hqe
      rw [hkey] at hnb
      have hfr : (LRUKReplacer.mkKey r.current_timestamp res.2 nv).frame_id ≠
          (LRUKReplacer.mkKey r.current_timestamp q.1 q.2).frame_id := by
        simpa [LRUKReplacer.mkKey] using fun h => hne h.symm
      rcases LRUKReplacer.better_total hfr with h | h
      · exact h
      · rw [h] at hnb
        exact absurd hnb (by simp)
    · rw [hstate, hremove]
    · rw [hstate, hremove]
      have hpos := countEvictable_pos hfound hnve
      show r.current_size - 1 + 1 = r.current_size
      omega

/-- Witness for C2 at a concrete two-frame state: both frames evictable,
frame 2 is older under the sentinel tie-break chain. -/
theorem evict_selects_maximal_witness :
    ∃ v nv,
      (({ current_size := 2, capacity := 4, k := 2, node_store := [(1, { k := 2, history := [2], is_evictable := true }), (2, { k := 2, history := [1], is_evictable := true })], current_timestamp := 2 } : LRUKReplacer).evict).1 = some v ∧
      (v, nv) ∈ ({ current_size := 2, capacity := 4, k := 2, node_store := [(1, { k := 2, history := [2], is_evictable := true }), (2, { k := 2, history := [1], is_evictable := true })], current_timestamp := 2 } : LRUKReplacer).node_store ∧
      nv.is_evictable = true ∧
      (∀ q ∈ ({ current_size := 2, capacity := 4, k := 2, node_store := [(1, { k := 2, history := [2], is_evictable := true }), (2, { k := 2, history := [1], is_evictable := true })], current_timestamp := 2 } : LRUKReplacer).node_store,
        q.2.is_evictable = true → q.1 ≠ v →
        LRUKReplacer.better (LRUKReplacer.mkKey 2 v nv)
          (LRUKReplacer.mkKey 2 q.1 q.2) = true) ∧
      (({ current_size := 2, capacity := 4, k := 2, node_store := [(1, { k := 2, history := [2], is_evictable := true }), (2, { k := 2, history := [1], is_evictable := true })], current_timestamp := 2 } : LRUKReplacer).evict).2.node_store =
        eraseNode v [(1, { k := 2, history := [2], is_evictable := true }), (2, { k := 2, history := [1], is_evictable := true })] ∧
      (({ current_size := 2, capacity := 4, k := 2, node_store := [(1, { k := 2, history := [2], is_evictable := true }), (2, { k := 2, history := [1], is_evictable := true })], current_timestamp := 2 } : LRUKReplacer).evict).2.current_size + 1 = 2 :=
  evict_selects_maximal
    { current_size := 2, capacity := 4, k := 2, node_store := [(1, { k := 2, history := [2], is_evictable := true }), (2, { k := 2, history := [1], is_evictable := true })], current_timestamp := 2 }
    (by decide) (by decide)
    (1, { k := 2, history := [2], is_evictable := true }) (by decide) (by decide)

/-- C7 counterexample: after `2^64 + 1` recorded accesses the clock has
wrapped, and the reachable state holds a tracked frame whose stored
history `[U64_MAX, 0]` is not strictly increasing. -/
theorem history_unsorted_after_wrap_cex :
    LRUKReplacer.Reachable
      (LRUKReplacer.iterAccess 1 (U64_MAX + 1) (LRUKReplacer.new 1 2)) ∧
    (1, ({ k := 2, history := [U64_MAX, 0], is_evictable := false } : LRUKNode)) ∈
      (LRUKReplacer.iterAccess 1 (U64_MAX + 1) (LRUKReplacer.new 1 2)).node_store ∧
    ¬ List.Chain' (fun a b => a < b) [U64_MAX, 0] := by
  refine ⟨LRUKReplacer.iterAccess_reachable 1 (U64_MAX + 1)
    (LRUKReplacer.Reachable.init 1 2 (by norm_num) (by norm_num)), ?_, ?_⟩
  · rw [LRUKReplacer.iterAccess_wrap]
    simp
  · simp [List.chain'_cons]

/-- C7 (amended): in every reachable state each tracked frame's history
holds between 1 and `k` timestamps, and recording into a full history
drops the oldest timestamp before appending; the timestamps are strictly
increasing oldest-first in every state reachable without the clock
having wrapped (fewer than `2^64` recorded accesses). -/
theorem history_invariants :
    (∀ r, LRUKReplacer.Reachable r → ∀ p ∈ r.node_store,
      1 ≤ p.2.history.length ∧ p.2.history.length ≤ p.2.k) ∧
    (∀ r, LRUKReplacer.ReachableNW r → ∀ p ∈ r.node_store,
      List.Chain' (fun a b => a < b) p.2.history) ∧
    (∀ (n : LRUKNode) (ts : Nat), n.history.length = n.k →
      (n.record_access ts).history = n.history.tail ++ [ts]) :=
  ⟨fun _ h => (LRUKReplacer.reachable_inv h).hist_len,
   fun _ h => (LRUKReplacer.reachableNW_invNW h).sorted,
   fun n ts h => LRUKNode.record_access_full n ts h⟩

/-- Witness for C7 at a concrete reachable state and a concrete full
history. -/
theorem history_invariants_witness :
    (∀ p ∈ (((LRUKReplacer.new 2 2).record_access 1).2).node_store,
      1 ≤ p.2.history.length ∧ p.2.history.length ≤ p.2.k) ∧
    (∀ p ∈ (((LRUKReplacer.new 2 2).record_access 1).2).node_store,
      List.Chain' (fun a b => a < b) p.2.history) ∧
    ((({ k := 1, history := [5], is_evictable := false } : LRUKNode).record_access 7).history =
      [5].tail ++ [7]) :=
  ⟨history_invariants.1 _
     (LRUKReplacer.Reachable.record _ 1
       (LRUKReplacer.Reachable.init 2 2 (by norm_num) (by norm_num))),
   history_invariants.2.1 _
     (LRUKReplacer.ReachableNW.record _ 1 (by norm_num [U64_MAX, LRUKReplacer.new])
       (LRUKReplacer.ReachableNW.init 2 2 (by norm_num) (by norm_num))),
   history_invariants.2.2 { k := 1, history := [5], is_evictable := false } 7 (by decide)⟩
